import Mathlib

/-!
Shallow embedding of the go-geohash integer geohash library
(`geohash_int.go`), together with proofs of the specification claims.

Modelling conventions:
* Go `float64` values are modelled as exact rationals (`ℚ`).  Every
  floating-point operation the library performs on coordinate bounds is
  exact in `float64` (all bounds are dyadic rationals of the form
  `m * 45 / 2^k` with tiny numerators), so the rational model computes
  the very same values the Go code does; comparisons against arbitrary
  finite `float64` inputs are exact as well, since every `float64` is a
  rational.
* Go `int64` values are modelled as `Int`.  The only operation that can
  overflow an `int64` in the source is the left shift in `Shift`; it is
  modelled with an explicit two's-complement wrap.
* `panic` (used by `validateBitDepth`) is modelled by returning `none`
  from every public operation whose bit depth fails validation.
* Go's `int(x)` conversion from `float64` truncates toward zero; it is
  modelled by `ratTrunc`.  `x & 0x01` on a two's-complement `int64`
  equals the Euclidean remainder `x % 2`, which is how the low-bit mask
  in `getBit` is rendered.
-/

namespace Geohash

/-- MaxBitDepth defines both the maximum and default geohash accuracy. -/
def MaxBitDepth : Int := 52

/-- bearing defines the compass bearing/direction in matrix form relative to
a center point of 0,0 (fields `x`, `y` are Go `int`s). -/
structure bearing where
  x : Int
  y : Int
deriving DecidableEq

/-- North bearing from reference point X. -/
def North : bearing := ⟨1, 0⟩

/-- NorthEast bearing from reference point X. -/
def NorthEast : bearing := ⟨1, 1⟩

/-- East bearing from reference point X. -/
def East : bearing := ⟨0, 1⟩

/-- SouthEast bearing from reference point X. -/
def SouthEast : bearing := ⟨-1, 1⟩

/-- South bearing from reference point X. -/
def South : bearing := ⟨-1, 0⟩

/-- SouthWest bearing from reference point X. -/
def SouthWest : bearing := ⟨-1, -1⟩

/-- West bearing from reference point X. -/
def West : bearing := ⟨0, -1⟩

/-- NorthWest bearing from reference point X. -/
def NorthWest : bearing := ⟨1, -1⟩

/-- bitsToRadiusMap provides the mapping between bitDepth values and
distances: index `i` holds the radius for depth `52 - 2*i` (the slice
variant of the precision table; the map variant holds the same radii
keyed by bit depth).  Radii are the decimal literals of the source. -/
def bitsToRadiusMap : List ℚ :=
  [0.5971, 1.1943, 2.3889, 4.7774, 9.5547, 19.1095, 38.2189, 76.4378,
   152.8757, 305.751, 611.5028, 1223.0056, 2446.0112, 4892.0224,
   9784.0449, 19568.0898, 39136.1797, 78272.35938, 156544.7188,
   313089.4375, 626178.875, 1252357.75, 2504715.5, 5009431, 10018863]

/-- validateBitDepth will ensure the supplied bitDepth is valid (the Go
code panics otherwise; the panic is modelled by `false`).  The range
check precedes the parity check exactly as in the source. -/
def validateBitDepth (bitDepth : Int) : Bool :=
  if bitDepth > MaxBitDepth ∨ bitDepth ≤ 0 then false
  else if bitDepth % 2 ≠ 0 then false
  else true

/-- Truncation of a rational toward zero: the behaviour of Go's `int(x)`
conversion from `float64`. -/
def ratTrunc (q : ℚ) : Int :=
  if q < 0 then ⌈q⌉ else ⌊q⌋

/-- getBit returns the bit at the requested location:
`int(float64(geohash) / math.Pow(2, position)) & 0x01`.  The float
division is exact for `|geohash| < 2^53` (the library's whole hash
range), the `int` conversion truncates toward zero, and `& 0x01` on a
two's-complement `int64` is the Euclidean remainder mod 2. -/
def getBit (geohash : Int) (position : Int) : Int :=
  ratTrunc ((geohash : ℚ) / ((2 : ℚ) ^ position.toNat)) % 2

/-- State of the `EncodeInt` loop: accumulator and the four coordinate
bounds. -/
structure EncState where
  geohash : Int
  maxLat : ℚ
  minLat : ℚ
  maxLng : ℚ
  minLng : ℚ
deriving DecidableEq

/-- Initial state of the `EncodeInt` loop. -/
def encInit : EncState := ⟨0, 90, -90, 180, -180⟩

/-- One iteration of the `EncodeInt` loop body, at loop counter
`bitsTotal`: double the accumulator, bisect the active dimension
(longitude on even counters, latitude on odd ones), set the new low bit
when the coordinate exceeds the midpoint. -/
def encodeStep (latitude longitude : ℚ) (s : EncState) (bitsTotal : Nat) : EncState :=
  if bitsTotal % 2 = 0 then
    let mid := (s.maxLng + s.minLng) / 2
    if longitude > mid then
      { s with geohash := s.geohash * 2 + 1, minLng := mid }
    else
      { s with geohash := s.geohash * 2, maxLng := mid }
  else
    let mid := (s.maxLat + s.minLat) / 2
    if latitude > mid then
      { s with geohash := s.geohash * 2 + 1, minLat := mid }
    else
      { s with geohash := s.geohash * 2, maxLat := mid }

/-- The `EncodeInt` loop: `n` iterations of `encodeStep` with
`bitsTotal` running from 0 to `n - 1`. -/
def encodeSteps (latitude longitude : ℚ) (n : Nat) : EncState :=
  (List.range n).foldl (encodeStep latitude longitude) encInit

/-- EncodeInt will encode a pair of latitude and longitude values into a
geohash integer: validation first, then `bitDepth` bisection
iterations. -/
def EncodeInt (latitude longitude : ℚ) (bitDepth : Int) : Option Int :=
  if validateBitDepth bitDepth then
    some (encodeSteps latitude longitude bitDepth.toNat).geohash
  else none

/-- A bounding box, as returned by `DecodeBboxInt`. -/
structure Bbox where
  minLat : ℚ
  minLng : ℚ
  maxLat : ℚ
  maxLng : ℚ
deriving DecidableEq

/-- Initial bounds of the `DecodeBboxInt` loop. -/
def bboxInit : Bbox := ⟨-90, -180, 90, 180⟩

/-- One iteration of the `DecodeBboxInt` loop body at loop counter
`thisStep`: read the longitude bit at position `(steps-thisStep)*2 - 1`
and the latitude bit at `(steps-thisStep)*2 - 2`, then narrow the
latitude bounds and afterwards the longitude bounds toward the half
selected by each bit. -/
def decodeStep (geohash : Int) (steps : Nat) (b : Bbox) (thisStep : Nat) : Bbox :=
  let lonBit := getBit geohash (((steps : Int) - (thisStep : Int)) * 2 - 1)
  let latBit := getBit geohash (((steps : Int) - (thisStep : Int)) * 2 - 2)
  let b1 :=
    if latBit = 0 then { b with maxLat := (b.maxLat + b.minLat) / 2 }
    else { b with minLat := (b.maxLat + b.minLat) / 2 }
  if lonBit = 0 then { b1 with maxLng := (b1.maxLng + b1.minLng) / 2 }
  else { b1 with minLng := (b1.maxLng + b1.minLng) / 2 }

/-- The first `u` iterations of the `DecodeBboxInt` loop (out of
`steps` total). -/
def decodeSteps (geohash : Int) (steps : Nat) (u : Nat) : Bbox :=
  (List.range u).foldl (decodeStep geohash steps) bboxInit

/-- DecodeBboxInt will decode a geohash integer into the bounding box
that matches it. -/
def DecodeBboxInt (geohash : Int) (bitDepth : Int) : Option Bbox :=
  if validateBitDepth bitDepth then
    let steps := (bitDepth / 2).toNat
    some (decodeSteps geohash steps steps)
  else none

/-- Point as returned by `DecodeInt`: the bounding box's center and the
maximum error of the calculation. -/
structure Point where
  lat : ℚ
  lng : ℚ
  latErr : ℚ
  lngErr : ℚ
deriving DecidableEq

/-- DecodeInt will decode an integer geohashed number into a pair of
latitude and longitude value approximations plus their maximum
errors. -/
def DecodeInt (geohash : Int) (bitDepth : Int) : Option Point :=
  if validateBitDepth bitDepth then
    (DecodeBboxInt geohash bitDepth).map fun b =>
      { lat := (b.minLat + b.maxLat) / 2
        lng := (b.minLng + b.maxLng) / 2
        latErr := b.maxLat - (b.minLat + b.maxLat) / 2
        lngErr := b.maxLng - (b.minLng + b.maxLng) / 2 }
  else none

/-- NeighborInt will find the neighbor of an integer geohash in a certain
bearing/direction: step the decoded center by twice the error margin in
the bearing's direction and re-encode. -/
def NeighborInt (geohash : Int) (b : bearing) (bitDepth : Int) : Option Int :=
  if validateBitDepth bitDepth then
    (DecodeInt geohash bitDepth).bind fun p =>
      EncodeInt (p.lat + (b.x : ℚ) * p.latErr * 2) (p.lng + (b.y : ℚ) * p.lngErr * 2) bitDepth
  else none

/-- NeighborsInt is the same as calling NeighborInt for each direction and
will return all 8 neighbors and the center location, in source order
N, NE, E, SE, S, SW, W, NW, self. -/
def NeighborsInt (geohash : Int) (bitDepth : Int) : Option (List Int) :=
  if validateBitDepth bitDepth then
    (NeighborInt geohash North bitDepth).bind fun n1 =>
    (NeighborInt geohash NorthEast bitDepth).bind fun n2 =>
    (NeighborInt geohash East bitDepth).bind fun n3 =>
    (NeighborInt geohash SouthEast bitDepth).bind fun n4 =>
    (NeighborInt geohash South bitDepth).bind fun n5 =>
    (NeighborInt geohash SouthWest bitDepth).bind fun n6 =>
    (NeighborInt geohash West bitDepth).bind fun n7 =>
    (NeighborInt geohash NorthWest bitDepth).bind fun n8 =>
    some [n1, n2, n3, n4, n5, n6, n7, n8, geohash]
  else none

/-- Go's `math.Copysign`: the magnitude of `x` with the sign of `y`. -/
def copysign (x y : ℚ) : ℚ :=
  if y < 0 then -|x| else |x|

/-- round is the "missing" round function from the math lib
(round-half-away-from-zero via `Modf`/`Copysign`/`Ceil`/`Floor`). -/
def round (val : ℚ) (roundOn : ℚ) (places : Nat) : ℚ :=
  let pow : ℚ := 10 ^ places
  let digit := pow * val
  let div := digit - (ratTrunc digit : ℚ)
  let d := copysign div val
  let r := copysign roundOn val
  if d ≥ r then (⌈digit⌉ : ℚ) / pow else (⌊digit⌋ : ℚ) / pow

/-- BboxesInt will return all the hash integers between minLat, minLon,
maxLat, maxLon at the requested bitDepth: encode the two corners, read
one cell's step size off the south-west corner, count steps to the
north-east corner, and collect a neighbor for every offset pair. -/
def BboxesInt (minLat minLon maxLat maxLon : ℚ) (bitDepth : Int) : Option (List Int) :=
  if validateBitDepth bitDepth then
    (EncodeInt minLat minLon bitDepth).bind fun hashSouthWest =>
    (EncodeInt maxLat maxLon bitDepth).bind fun hashNorthEast =>
    (DecodeInt hashSouthWest bitDepth).bind fun p =>
    (DecodeBboxInt hashSouthWest bitDepth).bind fun swBox =>
    (DecodeBboxInt hashNorthEast bitDepth).bind fun neBox =>
    ((List.range
        (ratTrunc (round ((neBox.minLat - swBox.minLat) / (p.latErr * 2)) (1/2) 0) + 1).toNat).mapM
      fun la =>
        (List.range
            (ratTrunc (round ((neBox.maxLng - swBox.maxLng) / (p.lngErr * 2)) (1/2) 0)
              + 1).toNat).mapM
          fun ln => NeighborInt hashSouthWest ⟨(la : Int), (ln : Int)⟩ bitDepth).map List.flatten
  else none

/-- FindBitDepth will attempt to find the maximum bitdepth which contains
the supplied distance.  Helper: scan of the indexed radius table in
slice order, returning `MaxBitDepth - key*2` at the first radius
exceeding the distance and the sentinel 0 when none does. -/
def findFrom (distance : ℚ) : List (Nat × ℚ) → Int
  | [] => 0
  | (key, value) :: rest =>
      if value > distance then MaxBitDepth - (key : Int) * 2
      else findFrom distance rest

/-- FindBitDepth will attempt to find the maximum bitdepth which contains
the supplied distance (slice variant: `range` over `bitsToRadiusMap` in
ascending index order). -/
def FindBitDepth (distance : ℚ) : Int :=
  findFrom distance bitsToRadiusMap.enum

/-- Two's-complement wrap-around of Go `int64` arithmetic. -/
def wrapInt64 (n : Int) : Int :=
  (n + 2 ^ 63) % 2 ^ 64 - 2 ^ 63

/-- Shift provides a convenient way to convert from MaxBitDepth to
another: `value << uint64(MaxBitDepth - bitDepth)` with `int64`
overflow semantics. -/
def Shift (value : Int) (bitDepth : Int) : Option Int :=
  if validateBitDepth bitDepth then
    some (wrapInt64 (value * 2 ^ (MaxBitDepth - bitDepth).toNat))
  else none

/-! ### The validator -/

/-- The validator accepts exactly the even bit depths in `[2, 52]`. -/
theorem validateBitDepth_iff (d : Int) :
    validateBitDepth d = true ↔ 0 < d ∧ d ≤ 52 ∧ d % 2 = 0 := by
  unfold validateBitDepth MaxBitDepth
  split_ifs with h1 h2 <;> simp <;> omega

/-- Valid depths are twice their halved step count. -/
theorem depth_toNat (d : Int) (hv : validateBitDepth d = true) :
    d.toNat = 2 * (d / 2).toNat := by
  have h := (validateBitDepth_iff d).mp hv
  omega

/-! ### The bit accessor -/

theorem ratTrunc_of_nonneg {q : ℚ} (h : 0 ≤ q) : ratTrunc q = ⌊q⌋ := by
  unfold ratTrunc
  rw [if_neg (not_lt.mpr h)]

/-- On non-negative hashes, `getBit` is plain floored division followed by
a mod-2 mask. -/
theorem getBit_eq_of_nonneg (g : Int) (hg : 0 ≤ g) (p : Int) :
    getBit g p = g / 2 ^ p.toNat % 2 := by
  unfold getBit
  have h0 : (0 : ℚ) ≤ (g : ℚ) / (2 : ℚ) ^ p.toNat :=
    div_nonneg (by exact_mod_cast hg) (by positivity)
  have h2 : ((2 : ℚ) ^ p.toNat) = ((2 ^ p.toNat : ℕ) : ℚ) := by push_cast; ring
  rw [ratTrunc_of_nonneg h0, h2, Rat.floor_intCast_div_natCast]
  congr 1
  push_cast
  ring

theorem getBit_zero_or_one (g p : Int) : getBit g p = 0 ∨ getBit g p = 1 :=
  Int.emod_two_eq_zero_or_one _

/-- C7: for every non-negative hash below `2^53` and every position in
`[0, 52]`, `getBit` extracts the bit of the hash at that position
counted from the least significant bit — it equals the hash integer-divided
by `2^position` and masked with 1, and is always 0 or 1. -/
theorem spec_c7 (h p : Int) (hh0 : 0 ≤ h) (hh1 : h < 2 ^ 53) (hp0 : 0 ≤ p) (hp1 : p ≤ 52) :
    getBit h p = h / 2 ^ p.toNat % 2 ∧ (getBit h p = 0 ∨ getBit h p = 1) :=
  ⟨getBit_eq_of_nonneg h hh0 p, getBit_zero_or_one h p⟩

theorem spec_c7_witness :
    (0 ≤ (6 : Int) ∧ (6 : Int) < 2 ^ 53 ∧ 0 ≤ (1 : Int) ∧ (1 : Int) ≤ 52) ∧
    (getBit 6 1 = 6 / 2 ^ (1 : Int).toNat % 2 ∧ (getBit 6 1 = 0 ∨ getBit 6 1 = 1)) :=
  ⟨by decide, spec_c7 6 1 (by decide) (by decide) (by decide) (by decide)⟩

/-! ### The encoder loop -/

theorem encodeSteps_zero (la ln : ℚ) : encodeSteps la ln 0 = encInit := rfl

theorem encodeSteps_succ (la ln : ℚ) (n : Nat) :
    encodeSteps la ln (n + 1) = encodeStep la ln (encodeSteps la ln n) n := by
  unfold encodeSteps
  rw [List.range_succ, List.foldl_append, List.foldl_cons, List.foldl_nil]

theorem encodeStep_lng_gt (la ln : ℚ) (s : EncState) (i : Nat) (hi : i % 2 = 0)
    (h : ln > (s.maxLng + s.minLng) / 2) :
    encodeStep la ln s i =
      { s with geohash := s.geohash * 2 + 1, minLng := (s.maxLng + s.minLng) / 2 } := by
  simp [encodeStep, hi, h]

theorem encodeStep_lng_le (la ln : ℚ) (s : EncState) (i : Nat) (hi : i % 2 = 0)
    (h : ¬ln > (s.maxLng + s.minLng) / 2) :
    encodeStep la ln s i =
      { s with geohash := s.geohash * 2, maxLng := (s.maxLng + s.minLng) / 2 } := by
  simp [encodeStep, hi, h]

theorem encodeStep_lat_gt (la ln : ℚ) (s : EncState) (i : Nat) (hi : i % 2 = 1)
    (h : la > (s.maxLat + s.minLat) / 2) :
    encodeStep la ln s i =
      { s with geohash := s.geohash * 2 + 1, minLat := (s.maxLat + s.minLat) / 2 } := by
  simp [encodeStep, hi, h]

theorem encodeStep_lat_le (la ln : ℚ) (s : EncState) (i : Nat) (hi : i % 2 = 1)
    (h : ¬la > (s.maxLat + s.minLat) / 2) :
    encodeStep la ln s i =
      { s with geohash := s.geohash * 2, maxLat := (s.maxLat + s.minLat) / 2 } := by
  simp [encodeStep, hi, h]

/-- Every encode iteration doubles the accumulator and adds the new bit. -/
theorem encodeStep_geohash (la ln : ℚ) (s : EncState) (i : Nat) :
    (encodeStep la ln s i).geohash = s.geohash * 2 ∨
    (encodeStep la ln s i).geohash = s.geohash * 2 + 1 := by
  rcases Nat.mod_two_eq_zero_or_one i with hi | hi
  · by_cases h : ln > (s.maxLng + s.minLng) / 2
    · rw [encodeStep_lng_gt la ln s i hi h]; right; rfl
    · rw [encodeStep_lng_le la ln s i hi h]; left; rfl
  · by_cases h : la > (s.maxLat + s.minLat) / 2
    · rw [encodeStep_lat_gt la ln s i hi h]; right; rfl
    · rw [encodeStep_lat_le la ln s i hi h]; left; rfl

/-- After `n` iterations the accumulator lies in `[0, 2^n)`. -/
theorem encodeSteps_geohash_bounds (la ln : ℚ) (n : Nat) :
    0 ≤ (encodeSteps la ln n).geohash ∧ (encodeSteps la ln n).geohash < 2 ^ n := by
  induction n with
  | zero => simp [encodeSteps, encInit]
  | succ n ih =>
    rw [encodeSteps_succ]
    rw [pow_succ]
    rcases encodeStep_geohash la ln (encodeSteps la ln n) n with h | h <;> rw [h] <;>
      constructor <;> linarith [ih.1, ih.2]

theorem EncodeInt_eq_some (la ln : ℚ) (d : Int) (hv : validateBitDepth d = true) :
    EncodeInt la ln d = some (encodeSteps la ln d.toNat).geohash := by
  simp [EncodeInt, hv]

/-- C6: for every valid even bit depth and every pair of rational
coordinate inputs — in range or not — the encoder returns a hash in
`[0, 2^bitDepth - 1]` (termination after `bitDepth` iterations is
inherent in the total model: the loop is a fold over `bitDepth`
indices). -/
theorem spec_c6 (la ln : ℚ) (d : Int) (hv : validateBitDepth d = true) :
    ∃ g, EncodeInt la ln d = some g ∧ 0 ≤ g ∧ g ≤ 2 ^ d.toNat - 1 := by
  refine ⟨_, EncodeInt_eq_some la ln d hv, (encodeSteps_geohash_bounds la ln d.toNat).1, ?_⟩
  have h := (encodeSteps_geohash_bounds la ln d.toNat).2
  set M : Int := 2 ^ d.toNat with hM
  omega

theorem spec_c6_witness :
    validateBitDepth 6 = true ∧
    ∃ g, EncodeInt 1000 (-500) 6 = some g ∧ 0 ≤ g ∧ g ≤ 2 ^ (6 : Int).toNat - 1 :=
  ⟨by decide, spec_c6 1000 (-500) 6 (by decide)⟩

/-! ### The bounding-box decoder loop -/

theorem decodeSteps_zero (g : Int) (k : Nat) : decodeSteps g k 0 = bboxInit := rfl

theorem decodeSteps_succ (g : Int) (k u : Nat) :
    decodeSteps g k (u + 1) = decodeStep g k (decodeSteps g k u) u := by
  unfold decodeSteps
  rw [List.range_succ, List.foldl_append, List.foldl_cons, List.foldl_nil]

theorem decodeStep_00 (g : Int) (k : Nat) (b : Bbox) (u : Nat)
    (hlat : getBit g (((k : Int) - (u : Int)) * 2 - 2) = 0)
    (hlon : getBit g (((k : Int) - (u : Int)) * 2 - 1) = 0) :
    decodeStep g k b u =
      { b with maxLat := (b.maxLat + b.minLat) / 2, maxLng := (b.maxLng + b.minLng) / 2 } := by
  simp [decodeStep, hlat, hlon]

theorem decodeStep_01 (g : Int) (k : Nat) (b : Bbox) (u : Nat)
    (hlat : getBit g (((k : Int) - (u : Int)) * 2 - 2) = 0)
    (hlon : getBit g (((k : Int) - (u : Int)) * 2 - 1) = 1) :
    decodeStep g k b u =
      { b with maxLat := (b.maxLat + b.minLat) / 2, minLng := (b.maxLng + b.minLng) / 2 } := by
  simp [decodeStep, hlat, hlon]

theorem decodeStep_10 (g : Int) (k : Nat) (b : Bbox) (u : Nat)
    (hlat : getBit g (((k : Int) - (u : Int)) * 2 - 2) = 1)
    (hlon : getBit g (((k : Int) - (u : Int)) * 2 - 1) = 0) :
    decodeStep g k b u =
      { b with minLat := (b.maxLat + b.minLat) / 2, maxLng := (b.maxLng + b.minLng) / 2 } := by
  simp [decodeStep, hlat, hlon]

theorem decodeStep_11 (g : Int) (k : Nat) (b : Bbox) (u : Nat)
    (hlat : getBit g (((k : Int) - (u : Int)) * 2 - 2) = 1)
    (hlon : getBit g (((k : Int) - (u : Int)) * 2 - 1) = 1) :
    decodeStep g k b u =
      { b with minLat := (b.maxLat + b.minLat) / 2, minLng := (b.maxLng + b.minLng) / 2 } := by
  simp [decodeStep, hlat, hlon]

/-- After `u` decode iterations each interval has been halved exactly `u`
times, independently of the hash's bits. -/
theorem decodeSteps_width (g : Int) (k u : Nat) :
    (decodeSteps g k u).maxLat - (decodeSteps g k u).minLat = 180 / 2 ^ u ∧
    (decodeSteps g k u).maxLng - (decodeSteps g k u).minLng = 360 / 2 ^ u := by
  induction u with
  | zero => norm_num [decodeSteps_zero, bboxInit]
  | succ u ih =>
    rw [decodeSteps_succ]
    rcases getBit_zero_or_one g (((k : Int) - (u : Int)) * 2 - 2) with hlat | hlat <;>
      rcases getBit_zero_or_one g (((k : Int) - (u : Int)) * 2 - 1) with hlon | hlon <;>
      [rw [decodeStep_00 g k _ u hlat hlon]; rw [decodeStep_01 g k _ u hlat hlon];
       rw [decodeStep_10 g k _ u hlat hlon]; rw [decodeStep_11 g k _ u hlat hlon]] <;>
      refine ⟨?_, ?_⟩ <;> dsimp only <;> rw [pow_succ, ← div_div] <;>
      first
        | (rw [← ih.1]; ring)
        | (rw [← ih.2]; ring)

/-- Each decode interval is non-degenerate: min is below max. -/
theorem decodeSteps_min_lt_max (g : Int) (k u : Nat) :
    (decodeSteps g k u).minLat < (decodeSteps g k u).maxLat ∧
    (decodeSteps g k u).minLng < (decodeSteps g k u).maxLng := by
  have h := decodeSteps_width g k u
  have hpow : (0 : ℚ) < 180 / 2 ^ u := by positivity
  have hpow2 : (0 : ℚ) < 360 / 2 ^ u := by positivity
  exact ⟨by linarith [h.1], by linarith [h.2]⟩

/-- Decode bounds narrow monotonically along the loop. -/
theorem decodeSteps_mono (g : Int) (k : Nat) {u v : Nat} (huv : u ≤ v) :
    (decodeSteps g k u).minLat ≤ (decodeSteps g k v).minLat ∧
    (decodeSteps g k v).maxLat ≤ (decodeSteps g k u).maxLat ∧
    (decodeSteps g k u).minLng ≤ (decodeSteps g k v).minLng ∧
    (decodeSteps g k v).maxLng ≤ (decodeSteps g k u).maxLng := by
  induction v, huv using Nat.le_induction with
  | base => exact ⟨le_refl _, le_refl _, le_refl _, le_refl _⟩
  | succ v huv ih =>
    have hlt := decodeSteps_min_lt_max g k v
    rw [decodeSteps_succ]
    rcases getBit_zero_or_one g (((k : Int) - (v : Int)) * 2 - 2) with hlat | hlat <;>
      rcases getBit_zero_or_one g (((k : Int) - (v : Int)) * 2 - 1) with hlon | hlon <;>
      [rw [decodeStep_00 g k _ v hlat hlon]; rw [decodeStep_01 g k _ v hlat hlon];
       rw [decodeStep_10 g k _ v hlat hlon]; rw [decodeStep_11 g k _ v hlat hlon]] <;>
      refine ⟨?_, ?_, ?_, ?_⟩ <;> dsimp only <;>
      linarith [ih.1, ih.2.1, ih.2.2.1, ih.2.2.2, hlt.1, hlt.2]

theorem DecodeBboxInt_eq_some (g d : Int) (hv : validateBitDepth d = true) :
    DecodeBboxInt g d = some (decodeSteps g (d / 2).toNat (d / 2).toNat) := by
  simp [DecodeBboxInt, hv]

theorem DecodeInt_eq_some (g d : Int) (hv : validateBitDepth d = true) :
    DecodeInt g d =
      some { lat := ((decodeSteps g (d / 2).toNat (d / 2).toNat).minLat
                      + (decodeSteps g (d / 2).toNat (d / 2).toNat).maxLat) / 2
             lng := ((decodeSteps g (d / 2).toNat (d / 2).toNat).minLng
                      + (decodeSteps g (d / 2).toNat (d / 2).toNat).maxLng) / 2
             latErr := (decodeSteps g (d / 2).toNat (d / 2).toNat).maxLat
                      - ((decodeSteps g (d / 2).toNat (d / 2).toNat).minLat
                          + (decodeSteps g (d / 2).toNat (d / 2).toNat).maxLat) / 2
             lngErr := (decodeSteps g (d / 2).toNat (d / 2).toNat).maxLng
                      - ((decodeSteps g (d / 2).toNat (d / 2).toNat).minLng
                          + (decodeSteps g (d / 2).toNat (d / 2).toNat).maxLng) / 2 } := by
  rw [DecodeInt, if_pos hv, DecodeBboxInt_eq_some g d hv]
  rfl

/-- C3: for every valid even bit depth and every hash — negative and
out-of-range hashes included — `DecodeBboxInt` returns a box with
`minLat ≤ maxLat` and `minLng ≤ maxLng`, and the center point returned by
`DecodeInt` lies within that box. -/
theorem spec_c3 (g d : Int) (hv : validateBitDepth d = true) :
    ∃ b p, DecodeBboxInt g d = some b ∧ DecodeInt g d = some p ∧
      b.minLat ≤ b.maxLat ∧ b.minLng ≤ b.maxLng ∧
      b.minLat ≤ p.lat ∧ p.lat ≤ b.maxLat ∧ b.minLng ≤ p.lng ∧ p.lng ≤ b.maxLng := by
  refine ⟨_, _, DecodeBboxInt_eq_some g d hv, DecodeInt_eq_some g d hv, ?_, ?_, ?_, ?_, ?_, ?_⟩ <;>
    · have h := decodeSteps_min_lt_max g (d / 2).toNat (d / 2).toNat
      try dsimp only
      linarith [h.1, h.2]

theorem spec_c3_witness :
    validateBitDepth 4 = true ∧
    ∃ b p, DecodeBboxInt 11 4 = some b ∧ DecodeInt 11 4 = some p ∧
      b.minLat ≤ b.maxLat ∧ b.minLng ≤ b.maxLng ∧
      b.minLat ≤ p.lat ∧ p.lat ≤ b.maxLat ∧ b.minLng ≤ p.lng ∧ p.lng ≤ b.maxLng :=
  ⟨by decide, spec_c3 11 4 (by decide)⟩

/-- C4: at bit depth `d + 2` the decode error terms are exactly half of —
and hence strictly smaller than — those at any valid depth `d`, for every
hash. -/
theorem spec_c4 (g d : Int) (hv : validateBitDepth d = true) (hd : d + 2 ≤ 52) :
    ∃ p q, DecodeInt g d = some p ∧ DecodeInt g (d + 2) = some q ∧
      q.latErr = p.latErr / 2 ∧ q.lngErr = p.lngErr / 2 ∧
      q.latErr < p.latErr ∧ q.lngErr < p.lngErr := by
  have hch := (validateBitDepth_iff d).mp hv
  have hv2 : validateBitDepth (d + 2) = true := by
    rw [validateBitDepth_iff]
    omega
  refine ⟨_, _, DecodeInt_eq_some g d hv, DecodeInt_eq_some g (d + 2) hv2, ?_, ?_, ?_, ?_⟩ <;>
  · dsimp only
    have hk : ((d + 2) / 2).toNat = (d / 2).toNat + 1 := by omega
    rw [hk]
    have h1 := decodeSteps_width g (d / 2).toNat (d / 2).toNat
    have h2 := decodeSteps_width g ((d / 2).toNat + 1) ((d / 2).toNat + 1)
    simp only [pow_succ, ← div_div] at h2
    have hT : (0 : ℚ) < 180 / 2 ^ (d / 2).toNat := by positivity
    have hT2 : (0 : ℚ) < 360 / 2 ^ (d / 2).toNat := by positivity
    linarith [h1.1, h1.2, h2.1, h2.2]

theorem spec_c4_witness :
    (validateBitDepth 4 = true ∧ (4 : Int) + 2 ≤ 52) ∧
    ∃ p q, DecodeInt 11 4 = some p ∧ DecodeInt 11 (4 + 2) = some q ∧
      q.latErr = p.latErr / 2 ∧ q.lngErr = p.lngErr / 2 ∧
      q.latErr < p.latErr ∧ q.lngErr < p.lngErr :=
  ⟨⟨by decide, by decide⟩, spec_c4 11 4 (by decide) (by decide)⟩

/-! ### Neighbors -/

theorem NeighborInt_exists (g : Int) (b : bearing) (d : Int) (hv : validateBitDepth d = true) :
    ∃ v, NeighborInt g b d = some v := by
  rw [NeighborInt, if_pos hv, DecodeInt_eq_some g d hv, Option.some_bind]
  exact ⟨_, EncodeInt_eq_some _ _ d hv⟩

/-- C5: for every hash and valid even bit depth, `NeighborsInt` returns
exactly 9 values, in the fixed order N, NE, E, SE, S, SW, W, NW, self,
with the 9th element the input hash unchanged. -/
theorem spec_c5 (g d : Int) (hv : validateBitDepth d = true) :
    ∃ a1 a2 a3 a4 a5 a6 a7 a8 : Int,
      NeighborsInt g d = some [a1, a2, a3, a4, a5, a6, a7, a8, g] ∧
      ([a1, a2, a3, a4, a5, a6, a7, a8, g] : List Int).length = 9 ∧
      NeighborInt g North d = some a1 ∧ NeighborInt g NorthEast d = some a2 ∧
      NeighborInt g East d = some a3 ∧ NeighborInt g SouthEast d = some a4 ∧
      NeighborInt g South d = some a5 ∧ NeighborInt g SouthWest d = some a6 ∧
      NeighborInt g West d = some a7 ∧ NeighborInt g NorthWest d = some a8 := by
  obtain ⟨a1, h1⟩ := NeighborInt_exists g North d hv
  obtain ⟨a2, h2⟩ := NeighborInt_exists g NorthEast d hv
  obtain ⟨a3, h3⟩ := NeighborInt_exists g East d hv
  obtain ⟨a4, h4⟩ := NeighborInt_exists g SouthEast d hv
  obtain ⟨a5, h5⟩ := NeighborInt_exists g South d hv
  obtain ⟨a6, h6⟩ := NeighborInt_exists g SouthWest d hv
  obtain ⟨a7, h7⟩ := NeighborInt_exists g West d hv
  obtain ⟨a8, h8⟩ := NeighborInt_exists g NorthWest d hv
  refine ⟨a1, a2, a3, a4, a5, a6, a7, a8, ?_, rfl, h1, h2, h3, h4, h5, h6, h7, h8⟩
  rw [NeighborsInt, if_pos hv, h1, Option.some_bind, h2, Option.some_bind, h3, Option.some_bind,
    h4, Option.some_bind, h5, Option.some_bind, h6, Option.some_bind, h7, Option.some_bind,
    h8, Option.some_bind]

theorem spec_c5_witness :
    validateBitDepth 32 = true ∧
    ∃ a1 a2 a3 a4 a5 a6 a7 a8 : Int,
      NeighborsInt 1702789509 32 = some [a1, a2, a3, a4, a5, a6, a7, a8, 1702789509] ∧
      ([a1, a2, a3, a4, a5, a6, a7, a8, (1702789509 : Int)] : List Int).length = 9 ∧
      NeighborInt 1702789509 North 32 = some a1 ∧ NeighborInt 1702789509 NorthEast 32 = some a2 ∧
      NeighborInt 1702789509 East 32 = some a3 ∧ NeighborInt 1702789509 SouthEast 32 = some a4 ∧
      NeighborInt 1702789509 South 32 = some a5 ∧ NeighborInt 1702789509 SouthWest 32 = some a6 ∧
      NeighborInt 1702789509 West 32 = some a7 ∧ NeighborInt 1702789509 NorthWest 32 = some a8 :=
  ⟨by decide, spec_c5 1702789509 32 (by decide)⟩

/-! ### Option plumbing for the region enumerator -/

theorem mapM_exists_of_forall {α β : Type} (f : α → Option β) (hf : ∀ a, ∃ y, f a = some y) :
    ∀ l : List α, ∃ ys, l.mapM f = some ys := by
  intro l
  induction l with
  | nil => exact ⟨[], rfl⟩
  | cons a l ih =>
    obtain ⟨y, hy⟩ := hf a
    obtain ⟨ys, hys⟩ := ih
    exact ⟨y :: ys, by rw [List.mapM_cons, hy, hys]; rfl⟩

theorem NeighborsInt_exists (g d : Int) (hv : validateBitDepth d = true) :
    ∃ l, NeighborsInt g d = some l := by
  obtain ⟨a1, h1⟩ := NeighborInt_exists g North d hv
  obtain ⟨a2, h2⟩ := NeighborInt_exists g NorthEast d hv
  obtain ⟨a3, h3⟩ := NeighborInt_exists g East d hv
  obtain ⟨a4, h4⟩ := NeighborInt_exists g SouthEast d hv
  obtain ⟨a5, h5⟩ := NeighborInt_exists g South d hv
  obtain ⟨a6, h6⟩ := NeighborInt_exists g SouthWest d hv
  obtain ⟨a7, h7⟩ := NeighborInt_exists g West d hv
  obtain ⟨a8, h8⟩ := NeighborInt_exists g NorthWest d hv
  refine ⟨[a1, a2, a3, a4, a5, a6, a7, a8, g], ?_⟩
  rw [NeighborsInt, if_pos hv, h1, Option.some_bind, h2, Option.some_bind, h3, Option.some_bind,
    h4, Option.some_bind, h5, Option.some_bind, h6, Option.some_bind, h7, Option.some_bind,
    h8, Option.some_bind]

theorem map_flatten_exists (o : Option (List (List Int))) (ho : ∃ ys, o = some ys) :
    ∃ l, o.map List.flatten = some l := by
  obtain ⟨ys, rfl⟩ := ho
  exact ⟨_, rfl⟩

theorem bbox_loop_exists (G d : Int) (hv : validateBitDepth d = true) (A B : Nat) :
    ∃ ys, (List.range A).mapM
        (fun la => (List.range B).mapM
          fun ln => NeighborInt G ⟨(la : Int), (ln : Int)⟩ d) = some ys :=
  mapM_exists_of_forall _
    (fun la => mapM_exists_of_forall _
      (fun ln => NeighborInt_exists G ⟨(la : Int), (ln : Int)⟩ d hv) _) _

theorem BboxesInt_eq_some (mla mlo xla xlo : ℚ) (d : Int) (hv : validateBitDepth d = true) :
    ∃ l, BboxesInt mla mlo xla xlo d = some l := by
  rw [BboxesInt, if_pos hv, EncodeInt_eq_some mla mlo d hv, Option.some_bind,
    EncodeInt_eq_some xla xlo d hv, Option.some_bind,
    DecodeInt_eq_some _ d hv, Option.some_bind,
    DecodeBboxInt_eq_some _ d hv, Option.some_bind,
    DecodeBboxInt_eq_some _ d hv, Option.some_bind]
  exact map_flatten_exists _ (bbox_loop_exists _ d hv _ _)

/-- C2: each public operation taking a bit depth — encode, decode,
decodeBbox, neighbor, neighbors, bboxes, shift — fails (signals the
invalid-bit-depth condition, modelled as `none`) exactly when the depth
is `≤ 0`, `> 52` or odd; every even depth in `[2, 52]` is accepted by the
guard that each operation runs before any computation. -/
theorem spec_c2 (d : Int) :
    (validateBitDepth d = true ↔ 0 < d ∧ d ≤ 52 ∧ d % 2 = 0) ∧
    (∀ la ln : ℚ, EncodeInt la ln d = none ↔ (d ≤ 0 ∨ 52 < d ∨ d % 2 ≠ 0)) ∧
    (∀ g : Int, DecodeInt g d = none ↔ (d ≤ 0 ∨ 52 < d ∨ d % 2 ≠ 0)) ∧
    (∀ g : Int, DecodeBboxInt g d = none ↔ (d ≤ 0 ∨ 52 < d ∨ d % 2 ≠ 0)) ∧
    (∀ (g : Int) (b : bearing), NeighborInt g b d = none ↔ (d ≤ 0 ∨ 52 < d ∨ d % 2 ≠ 0)) ∧
    (∀ g : Int, NeighborsInt g d = none ↔ (d ≤ 0 ∨ 52 < d ∨ d % 2 ≠ 0)) ∧
    (∀ mla mlo xla xlo : ℚ, BboxesInt mla mlo xla xlo d = none ↔ (d ≤ 0 ∨ 52 < d ∨ d % 2 ≠ 0)) ∧
    (∀ v : Int, Shift v d = none ↔ (d ≤ 0 ∨ 52 < d ∨ d % 2 ≠ 0)) := by
  by_cases hv : validateBitDepth d = true
  · have hc := (validateBitDepth_iff d).mp hv
    have hR : ¬(d ≤ 0 ∨ 52 < d ∨ d % 2 ≠ 0) := by omega
    refine ⟨validateBitDepth_iff d, ?_, ?_, ?_, ?_, ?_, ?_, ?_⟩
    · intro la ln
      rw [EncodeInt_eq_some la ln d hv]
      simp only [reduceCtorEq, false_iff]
      omega
    · intro g
      rw [DecodeInt_eq_some g d hv]
      simp only [reduceCtorEq, false_iff]
      omega
    · intro g
      rw [DecodeBboxInt_eq_some g d hv]
      simp only [reduceCtorEq, false_iff]
      omega
    · intro g b
      obtain ⟨v, hvv⟩ := NeighborInt_exists g b d hv
      rw [hvv]
      simp only [reduceCtorEq, false_iff]
      omega
    · intro g
      obtain ⟨l, hl⟩ := NeighborsInt_exists g d hv
      rw [hl]
      simp only [reduceCtorEq, false_iff]
      omega
    · intro mla mlo xla xlo
      obtain ⟨l, hl⟩ := BboxesInt_eq_some mla mlo xla xlo d hv
      rw [hl]
      simp only [reduceCtorEq, false_iff]
      omega
    · intro v
      rw [Shift, if_pos hv]
      simp only [reduceCtorEq, false_iff]
      omega
  · have hv' : validateBitDepth d = false := by simpa using hv
    have hR : d ≤ 0 ∨ 52 < d ∨ d % 2 ≠ 0 := by
      have := (validateBitDepth_iff d).not.mp hv
      omega
    refine ⟨validateBitDepth_iff d, ?_, ?_, ?_, ?_, ?_, ?_, ?_⟩ <;>
      intros <;>
      simp [EncodeInt, DecodeInt, DecodeBboxInt, NeighborInt, NeighborsInt, BboxesInt, Shift,
        hv'] <;>
      omega

/-! ### The precision table -/

theorem findFrom_eq_zero_iff (p : ℚ) :
    ∀ l : List (Nat × ℚ), (∀ kv ∈ l, kv.1 < 26) →
      (findFrom p l = 0 ↔ ∀ kv ∈ l, ¬kv.2 > p) := by
  intro l
  induction l with
  | nil => intro _; simp [findFrom]
  | cons kv rest ih =>
    intro hkeys
    rcases kv with ⟨k, v⟩
    have hk : k < 26 := hkeys (k, v) (List.mem_cons_self _ _)
    have hrest := ih fun kv hm => hkeys kv (List.mem_cons_of_mem _ hm)
    by_cases hcmp : v > p
    · simp only [findFrom, if_pos hcmp, MaxBitDepth, List.forall_mem_cons]
      constructor
      · intro h
        exfalso
        omega
      · intro h
        exact absurd hcmp h.1
    · simp only [findFrom, if_neg hcmp, List.forall_mem_cons]
      rw [hrest]
      simp [hcmp]

/-- No table radius exceeds the distance exactly when the distance is at
least the largest radius, 10018863 m. -/
theorem radius_le_iff (p : ℚ) :
    (∀ v ∈ bitsToRadiusMap, ¬v > p) ↔ 10018863 ≤ p := by
  constructor
  · intro hall
    have hmem : (10018863 : ℚ) ∈ bitsToRadiusMap := by norm_num [bitsToRadiusMap]
    exact not_lt.mp (hall _ hmem)
  · intro hp v hv
    have hle : v ≤ 10018863 := by
      have hall : ∀ w ∈ bitsToRadiusMap, w ≤ (10018863 : ℚ) := by
        norm_num [bitsToRadiusMap]
      exact hall v hv
    exact not_lt.mpr (hle.trans hp)

/-- C8: `FindBitDepth` returns the sentinel 0 exactly when no
precision-table radius exceeds the requested distance, i.e. exactly when
the distance is at least the largest radius 10018863 m; the sentinel is an
ordinary return value, not a failure (`FindBitDepth` is total and never
returns `none`-like conditions). -/
theorem spec_c8 (p : ℚ) :
    (FindBitDepth p = 0 ↔ ∀ v ∈ bitsToRadiusMap, ¬v > p) ∧
    (FindBitDepth p = 0 ↔ 10018863 ≤ p) := by
  have hkeys : ∀ kv ∈ bitsToRadiusMap.enum, kv.1 < 26 := by decide
  have h1 : FindBitDepth p = 0 ↔ ∀ kv ∈ bitsToRadiusMap.enum, ¬kv.2 > p :=
    findFrom_eq_zero_iff p _ hkeys
  have h2 : (∀ kv ∈ bitsToRadiusMap.enum, ¬kv.2 > p) ↔ (∀ v ∈ bitsToRadiusMap, ¬v > p) := by
    constructor
    · intro hall v hv
      rw [← List.enum_map_snd bitsToRadiusMap] at hv
      obtain ⟨kv, hkv, rfl⟩ := List.mem_map.mp hv
      exact hall kv hkv
    · intro hall kv hkv
      apply hall
      rw [← List.enum_map_snd bitsToRadiusMap]
      exact List.mem_map_of_mem _ hkv
  exact ⟨h1.trans h2, (h1.trans h2).trans (radius_le_iff p)⟩

/-! ### High bits are ignored by the decoder -/

/-- Bits below position `n` are unchanged by reducing the hash mod `2^n`. -/
theorem getBit_emod (g : Int) (hg : 0 ≤ g) (n : Nat) (p : Int) (hpn : p.toNat < n) :
    getBit (g % 2 ^ n) p = getBit g p := by
  have hmod : (0 : Int) ≤ g % 2 ^ n := Int.emod_nonneg g (by positivity)
  rw [getBit_eq_of_nonneg _ hmod, getBit_eq_of_nonneg g hg]
  obtain ⟨a, rfl⟩ := Int.eq_ofNat_of_zero_le hg
  have hnat : a % 2 ^ n / 2 ^ p.toNat % 2 = a / 2 ^ p.toNat % 2 := by
    have hsplit : n = p.toNat + (n - p.toNat) := by omega
    rw [hsplit, pow_add, Nat.mod_mul_right_div_self]
    exact Nat.mod_mod_of_dvd _ (dvd_pow_self 2 (by omega : n - p.toNat ≠ 0))
  calc ((a : Int) % 2 ^ n / 2 ^ p.toNat % 2)
      = ((a % 2 ^ n / 2 ^ p.toNat % 2 : ℕ) : Int) := by push_cast; rfl
    _ = ((a / 2 ^ p.toNat % 2 : ℕ) : Int) := by rw [hnat]
    _ = (a : Int) / 2 ^ p.toNat % 2 := by push_cast; rfl

/-- The first `u` decode iterations agree on `g` and `g % 2^(2k)`. -/
theorem decodeSteps_emod (g : Int) (hg : 0 ≤ g) (k : Nat) :
    ∀ u, u ≤ k → decodeSteps (g % 2 ^ (2 * k)) k u = decodeSteps g k u := by
  intro u
  induction u with
  | zero => intro _; rfl
  | succ u ih =>
    intro hu
    have hu' : u ≤ k := by omega
    rw [decodeSteps_succ, decodeSteps_succ, ih hu']
    unfold decodeStep
    rw [getBit_emod g hg (2 * k) (((k : Int) - (u : Int)) * 2 - 1) (by omega),
      getBit_emod g hg (2 * k) (((k : Int) - (u : Int)) * 2 - 2) (by omega)]

/-- C10: for every valid even bit depth `d` and every non-negative hash
below `2^53`, `DecodeBboxInt` ignores the bits at positions `d` and
above: decoding `h` and decoding `h % 2^d` give the same box. -/
theorem spec_c10 (g d : Int) (hv : validateBitDepth d = true) (hg : 0 ≤ g)
    (hlt : g < 2 ^ 53) :
    DecodeBboxInt g d = DecodeBboxInt (g % 2 ^ d.toNat) d := by
  rw [DecodeBboxInt_eq_some g d hv, DecodeBboxInt_eq_some _ d hv]
  have hk : d.toNat = 2 * (d / 2).toNat := depth_toNat d hv
  rw [hk]
  rw [decodeSteps_emod g hg (d / 2).toNat (d / 2).toNat (le_refl _)]

theorem spec_c10_witness :
    (validateBitDepth 4 = true ∧ 0 ≤ (4064984913515641 : Int) ∧
      (4064984913515641 : Int) < 2 ^ 53) ∧
    DecodeBboxInt 4064984913515641 4 = DecodeBboxInt (4064984913515641 % 2 ^ (4 : Int).toNat) 4 :=
  ⟨by decide, spec_c10 4064984913515641 4 (by decide) (by decide) (by decide)⟩

/-! ### Structure of the encoded hash -/

/-- The tail of the encode loop only appends low bits: the hash after `n`
iterations is the hash after `m` iterations shifted up, plus a
non-negative remainder below the shift. -/
theorem encodeSteps_geohash_decomp (la ln : ℚ) (m : Nat) {n : Nat} (hmn : m ≤ n) :
    ∃ t, 0 ≤ t ∧ t < 2 ^ (n - m) ∧
      (encodeSteps la ln n).geohash = (encodeSteps la ln m).geohash * 2 ^ (n - m) + t := by
  induction n, hmn using Nat.le_induction with
  | base => exact ⟨0, le_refl 0, by simp, by simp⟩
  | succ n hmn ih =>
    obtain ⟨t, ht0, htl, heq⟩ := ih
    have hsub : n + 1 - m = (n - m) + 1 := by omega
    rw [encodeSteps_succ]
    rcases encodeStep_geohash la ln (encodeSteps la ln n) n with h | h
    · refine ⟨t * 2, by linarith, ?_, ?_⟩
      · rw [hsub, pow_succ]
        linarith
      · rw [h, heq, hsub, pow_succ]
        ring
    · refine ⟨t * 2 + 1, by linarith, ?_, ?_⟩
      · rw [hsub, pow_succ]
        linarith
      · rw [h, heq, hsub, pow_succ]
        ring

/-- Reading back bit `n - m - 1` of the final hash recovers the bit the
encoder chose at iteration `m`. -/
theorem encodeSteps_bit (la ln : ℚ) (m n : Nat) (hmn : m < n) :
    getBit (encodeSteps la ln n).geohash ((n : Int) - (m : Int) - 1)
      = (encodeSteps la ln (m + 1)).geohash - (encodeSteps la ln m).geohash * 2 := by
  have hg0 := (encodeSteps_geohash_bounds la ln n).1
  rw [getBit_eq_of_nonneg _ hg0]
  have htn : ((n : Int) - (m : Int) - 1).toNat = n - m - 1 := by omega
  rw [htn]
  obtain ⟨t, ht0, htl, heq⟩ := encodeSteps_geohash_decomp la ln (m + 1) (by omega : m + 1 ≤ n)
  have hnm : n - (m + 1) = n - m - 1 := by omega
  rw [hnm] at htl heq
  rw [heq, add_comm, Int.add_mul_ediv_right _ _ (by positivity : ((2 : Int) ^ (n - m - 1)) ≠ 0),
    Int.ediv_eq_zero_of_lt ht0 htl, zero_add, encodeSteps_succ]
  rcases encodeStep_geohash la ln (encodeSteps la ln m) m with h | h <;> rw [h] <;> omega

/-- In-domain coordinates stay inside the encoder's shrinking bounds. -/
theorem encodeSteps_contains (la ln : ℚ) (h1 : -90 ≤ la) (h2 : la ≤ 90)
    (h3 : -180 ≤ ln) (h4 : ln ≤ 180) (n : Nat) :
    (encodeSteps la ln n).minLat ≤ la ∧ la ≤ (encodeSteps la ln n).maxLat ∧
    (encodeSteps la ln n).minLng ≤ ln ∧ ln ≤ (encodeSteps la ln n).maxLng := by
  induction n with
  | zero => exact ⟨h1, h2, h3, h4⟩
  | succ n ih =>
    rw [encodeSteps_succ]
    rcases Nat.mod_two_eq_zero_or_one n with hp | hp
    · by_cases hc : ln > ((encodeSteps la ln n).maxLng + (encodeSteps la ln n).minLng) / 2
      · rw [encodeStep_lng_gt la ln _ n hp hc]
        exact ⟨ih.1, ih.2.1, le_of_lt hc, ih.2.2.2⟩
      · rw [encodeStep_lng_le la ln _ n hp hc]
        exact ⟨ih.1, ih.2.1, ih.2.2.1, not_lt.mp hc⟩
    · by_cases hc : la > ((encodeSteps la ln n).maxLat + (encodeSteps la ln n).minLat) / 2
      · rw [encodeStep_lat_gt la ln _ n hp hc]
        exact ⟨le_of_lt hc, ih.2.1, ih.2.2.1, ih.2.2.2⟩
      · rw [encodeStep_lat_le la ln _ n hp hc]
        exact ⟨ih.1, not_lt.mp hc, ih.2.2.1, ih.2.2.2⟩

/-- Decoding the full encoded hash replays the encoder's bounds: after
`u` decode steps the box equals the encoder's bounds after `2u`
iterations. -/
theorem encode_decode_correspond (la ln : ℚ) (k : Nat) :
    ∀ u, u ≤ k →
      (decodeSteps (encodeSteps la ln (2 * k)).geohash k u).minLat
          = (encodeSteps la ln (2 * u)).minLat ∧
      (decodeSteps (encodeSteps la ln (2 * k)).geohash k u).maxLat
          = (encodeSteps la ln (2 * u)).maxLat ∧
      (decodeSteps (encodeSteps la ln (2 * k)).geohash k u).minLng
          = (encodeSteps la ln (2 * u)).minLng ∧
      (decodeSteps (encodeSteps la ln (2 * k)).geohash k u).maxLng
          = (encodeSteps la ln (2 * u)).maxLng := by
  intro u
  induction u with
  | zero => intro _; exact ⟨rfl, rfl, rfl, rfl⟩
  | succ u ih =>
    intro hu
    obtain ⟨e1, e2, e3, e4⟩ := ih (by omega)
    have hb1 := encodeSteps_bit la ln (2 * u) (2 * k) (by omega)
    have hb2 := encodeSteps_bit la ln (2 * u + 1) (2 * k) (by omega)
    have hpos1 : (((k : Int) - (u : Int)) * 2 - 1)
        = ((2 * k : Nat) : Int) - ((2 * u : Nat) : Int) - 1 := by push_cast; ring
    have hpos2 : (((k : Int) - (u : Int)) * 2 - 2)
        = ((2 * k : Nat) : Int) - ((2 * u + 1 : Nat) : Int) - 1 := by push_cast; ring
    have h2u2 : 2 * (u + 1) = 2 * u + 1 + 1 := by ring
    rw [decodeSteps_succ, h2u2, encodeSteps_succ la ln (2 * u + 1), encodeSteps_succ la ln (2 * u)]
    by_cases hc1 : ln > ((encodeSteps la ln (2 * u)).maxLng + (encodeSteps la ln (2 * u)).minLng) / 2
    · have hS1 := encodeStep_lng_gt la ln (encodeSteps la ln (2 * u)) (2 * u) (by omega) hc1
      have hbit1 : getBit (encodeSteps la ln (2 * k)).geohash (((k : Int) - (u : Int)) * 2 - 1)
          = 1 := by
        rw [hpos1, hb1, encodeSteps_succ la ln (2 * u), hS1]
        try dsimp only
        omega
      by_cases hc2 : la > ((encodeSteps la ln (2 * u)).maxLat + (encodeSteps la ln (2 * u)).minLat) / 2
      · have hc2' : la > ((encodeStep la ln (encodeSteps la ln (2 * u)) (2 * u)).maxLat
            + (encodeStep la ln (encodeSteps la ln (2 * u)) (2 * u)).minLat) / 2 := by
          rw [hS1]; exact hc2
        have hS2 := encodeStep_lat_gt la ln (encodeStep la ln (encodeSteps la ln (2 * u)) (2 * u))
          (2 * u + 1) (by omega) hc2'
        have hbit2 : getBit (encodeSteps la ln (2 * k)).geohash (((k : Int) - (u : Int)) * 2 - 2)
            = 1 := by
          rw [hpos2, hb2, encodeSteps_succ la ln (2 * u + 1), encodeSteps_succ la ln (2 * u), hS2,
            hS1]
          try dsimp only
          omega
        rw [decodeStep_11 _ _ _ _ hbit2 hbit1, hS2, hS1]
        refine ⟨?_, ?_, ?_, ?_⟩ <;> try dsimp only
        · rw [e1, e2]
        · exact e2
        · rw [e3, e4]
        · exact e4
      · have hc2' : ¬la > ((encodeStep la ln (encodeSteps la ln (2 * u)) (2 * u)).maxLat
            + (encodeStep la ln (encodeSteps la ln (2 * u)) (2 * u)).minLat) / 2 := by
          rw [hS1]; exact hc2
        have hS2 := encodeStep_lat_le la ln (encodeStep la ln (encodeSteps la ln (2 * u)) (2 * u))
          (2 * u + 1) (by omega) hc2'
        have hbit2 : getBit (encodeSteps la ln (2 * k)).geohash (((k : Int) - (u : Int)) * 2 - 2)
            = 0 := by
          rw [hpos2, hb2, encodeSteps_succ la ln (2 * u + 1), encodeSteps_succ la ln (2 * u), hS2,
            hS1]
          try dsimp only
          omega
        rw [decodeStep_01 _ _ _ _ hbit2 hbit1, hS2, hS1]
        refine ⟨?_, ?_, ?_, ?_⟩ <;> try dsimp only
        · exact e1
        · rw [e1, e2]
        · rw [e3, e4]
        · exact e4
    · have hS1 := encodeStep_lng_le la ln (encodeSteps la ln (2 * u)) (2 * u) (by omega) hc1
      have hbit1 : getBit (encodeSteps la ln (2 * k)).geohash (((k : Int) - (u : Int)) * 2 - 1)
          = 0 := by
        rw [hpos1, hb1, encodeSteps_succ la ln (2 * u), hS1]
        try dsimp only
        omega
      by_cases hc2 : la > ((encodeSteps la ln (2 * u)).maxLat + (encodeSteps la ln (2 * u)).minLat) / 2
      · have hc2' : la > ((encodeStep la ln (encodeSteps la ln (2 * u)) (2 * u)).maxLat
            + (encodeStep la ln (encodeSteps la ln (2 * u)) (2 * u)).minLat) / 2 := by
          rw [hS1]; exact hc2
        have hS2 := encodeStep_lat_gt la ln (encodeStep la ln (encodeSteps la ln (2 * u)) (2 * u))
          (2 * u + 1) (by omega) hc2'
        have hbit2 : getBit (encodeSteps la ln (2 * k)).geohash (((k : Int) - (u : Int)) * 2 - 2)
            = 1 := by
          rw [hpos2, hb2, encodeSteps_succ la ln (2 * u + 1), encodeSteps_succ la ln (2 * u), hS2,
            hS1]
          try dsimp only
          omega
        rw [decodeStep_10 _ _ _ _ hbit2 hbit1, hS2, hS1]
        refine ⟨?_, ?_, ?_, ?_⟩ <;> try dsimp only
        · rw [e1, e2]
        · exact e2
        · exact e3
        · rw [e3, e4]
      · have hc2' : ¬la > ((encodeStep la ln (encodeSteps la ln (2 * u)) (2 * u)).maxLat
            + (encodeStep la ln (encodeSteps la ln (2 * u)) (2 * u)).minLat) / 2 := by
          rw [hS1]; exact hc2
        have hS2 := encodeStep_lat_le la ln (encodeStep la ln (encodeSteps la ln (2 * u)) (2 * u))
          (2 * u + 1) (by omega) hc2'
        have hbit2 : getBit (encodeSteps la ln (2 * k)).geohash (((k : Int) - (u : Int)) * 2 - 2)
            = 0 := by
          rw [hpos2, hb2, encodeSteps_succ la ln (2 * u + 1), encodeSteps_succ la ln (2 * u), hS2,
            hS1]
          try dsimp only
          omega
        rw [decodeStep_00 _ _ _ _ hbit2 hbit1, hS2, hS1]
        refine ⟨?_, ?_, ?_, ?_⟩ <;> try dsimp only
        · exact e1
        · rw [e1, e2]
        · exact e3
        · rw [e3, e4]

/-- C1: for every in-domain coordinate pair and valid even bit depth,
decoding the encoded hash at the same depth yields a center and error
terms that bound the distance to the original coordinates. -/
theorem spec_c1 (la ln : ℚ) (d : Int) (h1 : -90 ≤ la) (h2 : la ≤ 90) (h3 : -180 ≤ ln)
    (h4 : ln ≤ 180) (hv : validateBitDepth d = true) :
    ∃ g p, EncodeInt la ln d = some g ∧ DecodeInt g d = some p ∧
      |la - p.lat| ≤ p.latErr ∧ |ln - p.lng| ≤ p.lngErr := by
  have hk : d.toNat = 2 * (d / 2).toNat := depth_toNat d hv
  refine ⟨_, _, EncodeInt_eq_some la ln d hv, DecodeInt_eq_some _ d hv, ?_, ?_⟩ <;>
  · try dsimp only
    rw [hk]
    obtain ⟨c1, c2, c3, c4⟩ :=
      encode_decode_correspond la ln (d / 2).toNat (d / 2).toNat (le_refl _)
    have hcont := encodeSteps_contains la ln h1 h2 h3 h4 (2 * (d / 2).toNat)
    rw [abs_le]
    constructor <;> linarith [hcont.1, hcont.2.1, hcont.2.2.1, hcont.2.2.2,
      c1, c2, c3, c4]

theorem spec_c1_witness :
    ((-90 : ℚ) ≤ 37 ∧ (37 : ℚ) ≤ 90 ∧ (-180 : ℚ) ≤ 112 ∧ (112 : ℚ) ≤ 180 ∧
      validateBitDepth 4 = true) ∧
    ∃ g p, EncodeInt 37 112 4 = some g ∧ DecodeInt g 4 = some p ∧
      |(37 : ℚ) - p.lat| ≤ p.latErr ∧ |(112 : ℚ) - p.lng| ≤ p.lngErr :=
  ⟨⟨by norm_num, by norm_num, by norm_num, by norm_num, by decide⟩,
   spec_c1 37 112 4 (by norm_num) (by norm_num) (by norm_num) (by norm_num) (by decide)⟩

/-! ### Decode-then-encode round trip -/

/-- Peeling one binary digit off a floored division by a power of two. -/
theorem ediv_pow_succ (h : Int) (hh : 0 ≤ h) (t : Nat) :
    h / 2 ^ t = 2 * (h / 2 ^ (t + 1)) + h / 2 ^ t % 2 := by
  obtain ⟨a, rfl⟩ := Int.eq_ofNat_of_zero_le hh
  have hnat : a / 2 ^ t = 2 * (a / 2 ^ (t + 1)) + a / 2 ^ t % 2 := by
    have h1 : a / 2 ^ (t + 1) = a / 2 ^ t / 2 := by
      rw [pow_succ, Nat.div_div_eq_div_mul]
    rw [h1]
    omega
  calc (a : Int) / 2 ^ t
      = ((a / 2 ^ t : ℕ) : Int) := by push_cast; rfl
    _ = ((2 * (a / 2 ^ (t + 1)) + a / 2 ^ t % 2 : ℕ) : Int) := by rw [← hnat]
    _ = 2 * ((a : Int) / 2 ^ (t + 1)) + (a : Int) / 2 ^ t % 2 := by push_cast; rfl

/-- Center latitude of the box that a hash decodes to at `k` steps. -/
def decodedLat (h : Int) (k : Nat) : ℚ :=
  ((decodeSteps h k k).minLat + (decodeSteps h k k).maxLat) / 2

/-- Center longitude of the box that a hash decodes to at `k` steps. -/
def decodedLng (h : Int) (k : Nat) : ℚ :=
  ((decodeSteps h k k).minLng + (decodeSteps h k k).maxLng) / 2

/-- Encoding the decoded center replays the decoder's bounds and rebuilds
the hash top-down: after `2u` encode iterations the accumulator holds the
hash's top `2u` bits and the bounds match the decoder's after `u`
steps. -/
theorem decode_encode_state (h : Int) (k : Nat) (hh0 : 0 ≤ h) (hlt : h < 2 ^ (2 * k)) :
    ∀ u, u ≤ k →
      (encodeSteps (decodedLat h k) (decodedLng h k) (2 * u)).geohash
          = h / 2 ^ (2 * k - 2 * u) ∧
      (encodeSteps (decodedLat h k) (decodedLng h k) (2 * u)).minLat
          = (decodeSteps h k u).minLat ∧
      (encodeSteps (decodedLat h k) (decodedLng h k) (2 * u)).maxLat
          = (decodeSteps h k u).maxLat ∧
      (encodeSteps (decodedLat h k) (decodedLng h k) (2 * u)).minLng
          = (decodeSteps h k u).minLng ∧
      (encodeSteps (decodedLat h k) (decodedLng h k) (2 * u)).maxLng
          = (decodeSteps h k u).maxLng := by
  intro u
  induction u with
  | zero =>
    intro _
    refine ⟨?_, rfl, rfl, rfl, rfl⟩
    show (0 : Int) = h / 2 ^ (2 * k - 2 * 0)
    rw [Nat.mul_zero, Nat.sub_zero]
    exact (Int.ediv_eq_zero_of_lt hh0 hlt).symm
  | succ u ih =>
    intro hu
    obtain ⟨ehash, e1, e2, e3, e4⟩ := ih (by omega)
    have ht1 : ((((k : Int) - (u : Int)) * 2 - 1)).toNat = 2 * k - 2 * u - 1 := by omega
    have ht2 : ((((k : Int) - (u : Int)) * 2 - 2)).toNat = 2 * k - 2 * u - 2 := by omega
    have hgb1 : getBit h (((k : Int) - (u : Int)) * 2 - 1)
        = h / 2 ^ (2 * k - 2 * u - 1) % 2 := by
      rw [getBit_eq_of_nonneg h hh0, ht1]
    have hgb2 : getBit h (((k : Int) - (u : Int)) * 2 - 2)
        = h / 2 ^ (2 * k - 2 * u - 2) % 2 := by
      rw [getBit_eq_of_nonneg h hh0, ht2]
    have hd1 : h / 2 ^ (2 * k - 2 * u - 1)
        = 2 * (h / 2 ^ (2 * k - 2 * u)) + h / 2 ^ (2 * k - 2 * u - 1) % 2 := by
      have hx := ediv_pow_succ h hh0 (2 * k - 2 * u - 1)
      rw [(by omega : 2 * k - 2 * u - 1 + 1 = 2 * k - 2 * u)] at hx
      exact hx
    have hd2 : h / 2 ^ (2 * k - 2 * u - 2)
        = 2 * (h / 2 ^ (2 * k - 2 * u - 1)) + h / 2 ^ (2 * k - 2 * u - 2) % 2 := by
      have hx := ediv_pow_succ h hh0 (2 * k - 2 * u - 2)
      rw [(by omega : 2 * k - 2 * u - 2 + 1 = 2 * k - 2 * u - 1)] at hx
      exact hx
    have hmono := decodeSteps_mono h k (show u + 1 ≤ k by omega)
    have hfin := decodeSteps_min_lt_max h k k
    have h2u2 : 2 * (u + 1) = 2 * u + 1 + 1 := by ring
    rw [h2u2, encodeSteps_succ _ _ (2 * u + 1), encodeSteps_succ _ _ (2 * u), decodeSteps_succ]
    rcases Int.emod_two_eq_zero_or_one (h / 2 ^ (2 * k - 2 * u - 1)) with hbit1 | hbit1 <;>
      rcases Int.emod_two_eq_zero_or_one (h / 2 ^ (2 * k - 2 * u - 2)) with hbit2 | hbit2
    · -- lonBit = 0, latBit = 0
      have hlon : getBit h (((k : Int) - (u : Int)) * 2 - 1) = 0 := by rw [hgb1, hbit1]
      have hlat : getBit h (((k : Int) - (u : Int)) * 2 - 2) = 0 := by rw [hgb2, hbit2]
      have hmono' := hmono
      rw [decodeSteps_succ, decodeStep_00 _ _ _ _ hlat hlon] at hmono'
      try dsimp only at hmono'
      rw [decodeStep_00 _ _ _ _ hlat hlon]
      have hc1 : ¬decodedLng h k >
          ((encodeSteps (decodedLat h k) (decodedLng h k) (2 * u)).maxLng
            + (encodeSteps (decodedLat h k) (decodedLng h k) (2 * u)).minLng) / 2 := by
        rw [e3, e4, not_lt]
        unfold decodedLng
        linarith [hmono'.2.2.2, hfin.2]
      have hS1 := encodeStep_lng_le (decodedLat h k) (decodedLng h k)
        (encodeSteps (decodedLat h k) (decodedLng h k) (2 * u)) (2 * u) (by omega) hc1
      have hc2' : ¬decodedLat h k >
          ((encodeStep (decodedLat h k) (decodedLng h k)
              (encodeSteps (decodedLat h k) (decodedLng h k) (2 * u)) (2 * u)).maxLat
            + (encodeStep (decodedLat h k) (decodedLng h k)
              (encodeSteps (decodedLat h k) (decodedLng h k) (2 * u)) (2 * u)).minLat) / 2 := by
        rw [hS1]
        try dsimp only
        rw [e1, e2, not_lt]
        unfold decodedLat
        linarith [hmono'.2.1, hfin.1]
      have hS2 := encodeStep_lat_le (decodedLat h k) (decodedLng h k)
        (encodeStep (decodedLat h k) (decodedLng h k)
          (encodeSteps (decodedLat h k) (decodedLng h k) (2 * u)) (2 * u))
        (2 * u + 1) (by omega) hc2'
      rw [hS2, hS1]
      refine ⟨?_, ?_, ?_, ?_, ?_⟩ <;> try dsimp only
      · rw [ehash, (by omega : 2 * k - (2 * u + 1 + 1) = 2 * k - 2 * u - 2)]
        linarith [hd1, hd2, hbit1, hbit2]
      · exact e1
      · rw [e1, e2]
      · exact e3
      · rw [e3, e4]
    · -- lonBit = 0, latBit = 1
      have hlon : getBit h (((k : Int) - (u : Int)) * 2 - 1) = 0 := by rw [hgb1, hbit1]
      have hlat : getBit h (((k : Int) - (u : Int)) * 2 - 2) = 1 := by rw [hgb2, hbit2]
      have hmono' := hmono
      rw [decodeSteps_succ, decodeStep_10 _ _ _ _ hlat hlon] at hmono'
      try dsimp only at hmono'
      rw [decodeStep_10 _ _ _ _ hlat hlon]
      have hc1 : ¬decodedLng h k >
          ((encodeSteps (decodedLat h k) (decodedLng h k) (2 * u)).maxLng
            + (encodeSteps (decodedLat h k) (decodedLng h k) (2 * u)).minLng) / 2 := by
        rw [e3, e4, not_lt]
        unfold decodedLng
        linarith [hmono'.2.2.2, hfin.2]
      have hS1 := encodeStep_lng_le (decodedLat h k) (decodedLng h k)
        (encodeSteps (decodedLat h k) (decodedLng h k) (2 * u)) (2 * u) (by omega) hc1
      have hc2' : decodedLat h k >
          ((encodeStep (decodedLat h k) (decodedLng h k)
              (encodeSteps (decodedLat h k) (decodedLng h k) (2 * u)) (2 * u)).maxLat
            + (encodeStep (decodedLat h k) (decodedLng h k)
              (encodeSteps (decodedLat h k) (decodedLng h k) (2 * u)) (2 * u)).minLat) / 2 := by
        rw [hS1]
        try dsimp only
        rw [e1, e2]
        unfold decodedLat
        linarith [hmono'.1, hfin.1]
      have hS2 := encodeStep_lat_gt (decodedLat h k) (decodedLng h k)
        (encodeStep (decodedLat h k) (decodedLng h k)
          (encodeSteps (decodedLat h k) (decodedLng h k) (2 * u)) (2 * u))
        (2 * u + 1) (by omega) hc2'
      rw [hS2, hS1]
      refine ⟨?_, ?_, ?_, ?_, ?_⟩ <;> try dsimp only
      · rw [ehash, (by omega : 2 * k - (2 * u + 1 + 1) = 2 * k - 2 * u - 2)]
        linarith [hd1, hd2, hbit1, hbit2]
      · rw [e1, e2]
      · exact e2
      · exact e3
      · rw [e3, e4]
    · -- lonBit = 1, latBit = 0
      have hlon : getBit h (((k : Int) - (u : Int)) * 2 - 1) = 1 := by rw [hgb1, hbit1]
      have hlat : getBit h (((k : Int) - (u : Int)) * 2 - 2) = 0 := by rw [hgb2, hbit2]
      have hmono' := hmono
      rw [decodeSteps_succ, decodeStep_01 _ _ _ _ hlat hlon] at hmono'
      try dsimp only at hmono'
      rw [decodeStep_01 _ _ _ _ hlat hlon]
      have hc1 : decodedLng h k >
          ((encodeSteps (decodedLat h k) (decodedLng h k) (2 * u)).maxLng
            + (encodeSteps (decodedLat h k) (decodedLng h k) (2 * u)).minLng) / 2 := by
        rw [e3, e4]
        unfold decodedLng
        linarith [hmono'.2.2.1, hfin.2]
      have hS1 := encodeStep_lng_gt (decodedLat h k) (decodedLng h k)
        (encodeSteps (decodedLat h k) (decodedLng h k) (2 * u)) (2 * u) (by omega) hc1
      have hc2' : ¬decodedLat h k >
          ((encodeStep (decodedLat h k) (decodedLng h k)
              (encodeSteps (decodedLat h k) (decodedLng h k) (2 * u)) (2 * u)).maxLat
            + (encodeStep (decodedLat h k) (decodedLng h k)
              (encodeSteps (decodedLat h k) (decodedLng h k) (2 * u)) (2 * u)).minLat) / 2 := by
        rw [hS1]
        try dsimp only
        rw [e1, e2, not_lt]
        unfold decodedLat
        linarith [hmono'.2.1, hfin.1]
      have hS2 := encodeStep_lat_le (decodedLat h k) (decodedLng h k)
        (encodeStep (decodedLat h k) (decodedLng h k)
          (encodeSteps (decodedLat h k) (decodedLng h k) (2 * u)) (2 * u))
        (2 * u + 1) (by omega) hc2'
      rw [hS2, hS1]
      refine ⟨?_, ?_, ?_, ?_, ?_⟩ <;> try dsimp only
      · rw [ehash, (by omega : 2 * k - (2 * u + 1 + 1) = 2 * k - 2 * u - 2)]
        linarith [hd1, hd2, hbit1, hbit2]
      · exact e1
      · rw [e1, e2]
      · rw [e3, e4]
      · exact e4
    · -- lonBit = 1, latBit = 1
      have hlon : getBit h (((k : Int) - (u : Int)) * 2 - 1) = 1 := by rw [hgb1, hbit1]
      have hlat : getBit h (((k : Int) - (u : Int)) * 2 - 2) = 1 := by rw [hgb2, hbit2]
      have hmono' := hmono
      rw [decodeSteps_succ, decodeStep_11 _ _ _ _ hlat hlon] at hmono'
      try dsimp only at hmono'
      rw [decodeStep_11 _ _ _ _ hlat hlon]
      have hc1 : decodedLng h k >
          ((encodeSteps (decodedLat h k) (decodedLng h k) (2 * u)).maxLng
            + (encodeSteps (decodedLat h k) (decodedLng h k) (2 * u)).minLng) / 2 := by
        rw [e3, e4]
        unfold decodedLng
        linarith [hmono'.2.2.1, hfin.2]
      have hS1 := encodeStep_lng_gt (decodedLat h k) (decodedLng h k)
        (encodeSteps (decodedLat h k) (decodedLng h k) (2 * u)) (2 * u) (by omega) hc1
      have hc2' : decodedLat h k >
          ((encodeStep (decodedLat h k) (decodedLng h k)
              (encodeSteps (decodedLat h k) (decodedLng h k) (2 * u)) (2 * u)).maxLat
            + (encodeStep (decodedLat h k) (decodedLng h k)
              (encodeSteps (decodedLat h k) (decodedLng h k) (2 * u)) (2 * u)).minLat) / 2 := by
        rw [hS1]
        try dsimp only
        rw [e1, e2]
        unfold decodedLat
        linarith [hmono'.1, hfin.1]
      have hS2 := encodeStep_lat_gt (decodedLat h k) (decodedLng h k)
        (encodeStep (decodedLat h k) (decodedLng h k)
          (encodeSteps (decodedLat h k) (decodedLng h k) (2 * u)) (2 * u))
        (2 * u + 1) (by omega) hc2'
      rw [hS2, hS1]
      refine ⟨?_, ?_, ?_, ?_, ?_⟩ <;> try dsimp only
      · rw [ehash, (by omega : 2 * k - (2 * u + 1 + 1) = 2 * k - 2 * u - 2)]
        linarith [hd1, hd2, hbit1, hbit2]
      · rw [e1, e2]
      · exact e2
      · rw [e3, e4]
      · exact e4

/-- C9: for every valid even bit depth `d` and every hash in `[0, 2^d)`,
encoding the center point returned by decode at the same depth returns
the hash itself. -/
theorem spec_c9 (h d : Int) (hv : validateBitDepth d = true) (hh0 : 0 ≤ h)
    (hlt : h < 2 ^ d.toNat) :
    ∃ p, DecodeInt h d = some p ∧ EncodeInt p.lat p.lng d = some h := by
  have hk : d.toNat = 2 * (d / 2).toNat := depth_toNat d hv
  refine ⟨_, DecodeInt_eq_some h d hv, ?_⟩
  rw [EncodeInt_eq_some _ _ d hv]
  rw [hk] at hlt
  have hmain := (decode_encode_state h (d / 2).toNat hh0 hlt (d / 2).toNat (le_refl _)).1
  rw [(by omega : 2 * (d / 2).toNat - 2 * (d / 2).toNat = 0), pow_zero, Int.ediv_one] at hmain
  rw [hk]
  show some ((encodeSteps (decodedLat h (d / 2).toNat) (decodedLng h (d / 2).toNat)
      (2 * (d / 2).toNat)).geohash) = some h
  rw [hmain]

theorem spec_c9_witness :
    (validateBitDepth 4 = true ∧ 0 ≤ (11 : Int) ∧ (11 : Int) < 2 ^ (4 : Int).toNat) ∧
    ∃ p, DecodeInt 11 4 = some p ∧ EncodeInt p.lat p.lng 4 = some 11 :=
  ⟨by decide, spec_c9 11 4 (by decide) (by decide) (by decide)⟩

end Geohash
